import Mathlib

/-!
Verification development for the abydos string-comparison library excerpt:
tokenizers (SAPS, LegaliPy), token-multiset statistics, Lorentzian and
NCD-zlib distances, the Kuder-Richardson coefficient, and the Count
fingerprint.  Python strings are embedded as `List Char`, tokens as
`List Char` (or a generic type with decidable equality for the statistics
layer), machine integers as `Nat`/`Int`, and Python floats as rationals
with an explicit not-a-number constructor.
-/

namespace Abydos

/-- The vowel set of `SAPSTokenizer.tokenize`: `set('aeiouyAEIOUY')`. -/
def isVowel (c : Char) : Bool :=
  ['a', 'e', 'i', 'o', 'u', 'y', 'A', 'E', 'I', 'O', 'U', 'Y'].contains c

/-- Fuelled model of Python `str.split()`: split on whitespace runs,
dropping empty pieces.  The fuel argument makes the recursion structural;
`splitWords` instantiates it with the length of the input, which is always
sufficient. -/
def splitWordsF : Nat → List Char → List (List Char)
  | _, [] => []
  | 0, _ :: _ => []
  | fuel + 1, c :: rest =>
    if c.isWhitespace then splitWordsF fuel rest
    else
      (c :: rest.takeWhile (fun d => !d.isWhitespace)) ::
        splitWordsF fuel (rest.dropWhile (fun d => !d.isWhitespace))

/-- Python `str.split()` on an embedded string. -/
def splitWords (s : List Char) : List (List Char) :=
  splitWordsF s.length s

namespace SAPSTokenizer

/-- One word of the SAPS syllabifier loop (`_saps.py` lines 87-104),
fuelled to keep the recursion structural.  At each step the syllable takes
the current character (`syll = w[i:i+1]`), absorbs the following vowels
(the inner `while`), and then absorbs one further character exactly when
the syllable ends in a vowel and the remaining input is either a single
non-vowel or starts with two non-vowels. -/
def wordF : Nat → List Char → List (List Char)
  | _, [] => []
  | 0, _ :: _ => []
  | fuel + 1, c :: rest =>
    let vs := rest.takeWhile isVowel
    let rest1 := rest.dropWhile isVowel
    let syll := c :: vs
    if isVowel (vs.getLastD c) then
      match rest1 with
      | [] => syll :: wordF fuel rest1
      | [d] =>
        if !isVowel d then (syll ++ [d]) :: wordF fuel ([] : List Char)
        else syll :: wordF fuel rest1
      | d :: e :: rest2 =>
        if !isVowel d && !isVowel e then (syll ++ [d]) :: wordF fuel (e :: rest2)
        else syll :: wordF fuel rest1
    else syll :: wordF fuel rest1

/-- The SAPS syllabification of a single word. -/
def word (w : List Char) : List (List Char) :=
  wordF w.length w

/-- `SAPSTokenizer.tokenize` (`_saps.py` lines 78-107): split the string
into whitespace-separated words and run the syllabifier loop on each; the
ordered list is re-initialised to `[]` at the top of each iteration of the
per-word loop, so each word's syllables overwrite the previous word's. -/
def tokenize (s : List Char) : List (List Char) :=
  (splitWords s).foldl (fun _ w => word w) []

end SAPSTokenizer

/-- The syllable rule exactly as the claim states it (fuelled): a syllable
begins at the current character, absorbs any immediately following vowels,
then absorbs one trailing consonant when that consonant is followed by
either end-of-word or another consonant.  This definition follows the
claim's words; it is to be compared with `SAPSTokenizer.word`, which
follows the source. -/
def sapsClaimRuleF : Nat → List Char → List (List Char)
  | _, [] => []
  | 0, _ :: _ => []
  | fuel + 1, c :: rest =>
    let vs := rest.takeWhile isVowel
    let rest1 := rest.dropWhile isVowel
    let syll := c :: vs
    match rest1 with
    | [] => syll :: sapsClaimRuleF fuel rest1
    | [d] =>
      if !isVowel d then (syll ++ [d]) :: sapsClaimRuleF fuel ([] : List Char)
      else syll :: sapsClaimRuleF fuel rest1
    | d :: e :: rest2 =>
      if !isVowel d && !isVowel e then (syll ++ [d]) :: sapsClaimRuleF fuel (e :: rest2)
      else syll :: sapsClaimRuleF fuel rest1

/-- The claim's syllable rule applied to a whole word. -/
def sapsClaimRule (w : List Char) : List (List Char) :=
  sapsClaimRuleF w.length w

/-- The amended syllable rule (fuelled): as `sapsClaimRuleF`, except that
the trailing consonant is absorbed only when the syllable built so far
(initial character plus absorbed vowels) ends in a vowel. -/
def sapsAmendedRuleF : Nat → List Char → List (List Char)
  | _, [] => []
  | 0, _ :: _ => []
  | fuel + 1, c :: rest =>
    let vs := rest.takeWhile isVowel
    let rest1 := rest.dropWhile isVowel
    let syll := c :: vs
    match rest1 with
    | [] => syll :: sapsAmendedRuleF fuel rest1
    | [d] =>
      if isVowel (vs.getLastD c) && !isVowel d then
        (syll ++ [d]) :: sapsAmendedRuleF fuel ([] : List Char)
      else syll :: sapsAmendedRuleF fuel rest1
    | d :: e :: rest2 =>
      if isVowel (vs.getLastD c) && (!isVowel d && !isVowel e) then
        (syll ++ [d]) :: sapsAmendedRuleF fuel (e :: rest2)
      else syll :: sapsAmendedRuleF fuel rest1

/-- The amended syllable rule applied to a whole word. -/
def sapsAmendedRule (w : List Char) : List (List Char) :=
  sapsAmendedRuleF w.length w

/-- Modelled from the spec: the base `_Tokenizer.tokenize` (not part of the
excerpt) stores the ordered token list also as a `Counter`; the token-count
mapping sends each token to its number of occurrences in the ordered
list. -/
def tokenCounter {α : Type} [DecidableEq α] (l : List α) (t : α) : Nat :=
  l.count t

/-- Modelled from the spec: the `scaler='set'` mode of the base tokenizer
(not part of the excerpt) maps every positive count to 1 and leaves zero
counts unchanged. -/
def setScale {α : Type} (c : α → Nat) : α → Nat :=
  fun t => if 0 < c t then 1 else c t

section Statistics

variable {α : Type} [DecidableEq α]

/-- Modelled from the spec: the statistics table's alphabet (computed in
the `_TokenDistance` base class, not part of the excerpt) is the set union
of the tokens appearing in either multiset; in `Lorentzian.dist_abs` it
appears as `self._total().keys()`. -/
def alphabetFS (A B : List α) : Finset α :=
  (A ++ B).toFinset

/-- Modelled from the spec: contingency cell `both`, the number of alphabet
tokens with positive count on both sides. -/
def bothCard (A B : List α) : Nat :=
  ((alphabetFS A B).filter (fun t => 0 < A.count t ∧ 0 < B.count t)).card

/-- Modelled from the spec: contingency cell `only_a`, the number of
alphabet tokens with positive count in A and zero count in B. -/
def onlyACard (A B : List α) : Nat :=
  ((alphabetFS A B).filter (fun t => 0 < A.count t ∧ B.count t = 0)).card

/-- Modelled from the spec: contingency cell `only_b`, the number of
alphabet tokens with zero count in A and positive count in B. -/
def onlyBCard (A B : List α) : Nat :=
  ((alphabetFS A B).filter (fun t => A.count t = 0 ∧ 0 < B.count t)).card

/-- Modelled from the spec: the sum over the alphabet of
`total(tok) = countA(tok) + countB(tok)`. -/
def totalSumStat (A B : List α) : Nat :=
  ∑ t ∈ alphabetFS A B, (A.count t + B.count t)

/-- Modelled from the spec: crisp intersection size, the sum over the
alphabet of `min(countA(tok), countB(tok))`. -/
def minSumStat (A B : List α) : Nat :=
  ∑ t ∈ alphabetFS A B, min (A.count t) (B.count t)

/-- Modelled from the spec: crisp union size, the sum over the alphabet of
`max(countA(tok), countB(tok))`. -/
def maxSumStat (A B : List α) : Nat :=
  ∑ t ∈ alphabetFS A B, max (A.count t) (B.count t)

/-- `Lorentzian.dist_abs` (`_lorentzian.py` lines 106-113) on two already
tokenized inputs: the sum over the alphabet (the keys of the combined
counter) of `log1p` of the absolute difference of the two counts. -/
noncomputable def lorentzianDistAbs (A B : List α) : ℝ :=
  ∑ t ∈ alphabetFS A B, Real.log (1 + |(A.count t : ℝ) - (B.count t : ℝ)|)

end Statistics

/-- `NCDzlib.dist` (`_ncd_zlib.py` lines 89-103), with the external zlib
compressed-size function abstracted as `compress` (the length in bytes of
`zlib.compress` at the configured level; UTF-8 encoding commutes with
concatenation, so compression is modelled directly on embedded strings).
Identical inputs short-circuit to 0 before any compression. -/
def ncdZlibDist (compress : List Char → Nat) (src tar : List Char) : ℚ :=
  if src = tar then 0
  else
    let src_comp := compress src
    let tar_comp := compress tar
    let concat_comp := compress (src ++ tar)
    let concat_comp2 := compress (tar ++ src)
    ((min concat_comp concat_comp2 : ℤ) - (min src_comp tar_comp : ℤ)) /
      ((max src_comp tar_comp : ℤ) - 2 : ℚ)

/-- A Python float restricted to the values the coefficient layer
produces: a rational value or the not-a-number value. -/
inductive PyFloat : Type
  | val (q : ℚ) : PyFloat
  | nan : PyFloat
deriving DecidableEq

/-- Modelled from the spec: `KuderRichardson.sim` (its source file is not
part of the excerpt; only its reference tests are).  From the 2x2
contingency cells a = both, b = only_a, c = only_b and d = neither (0 in
open-world mode, which the reference test values pin down), the formula is
`4(ad - bc) / ((a+b)(c+d) + (a+c)(b+d) + 2(ad - bc))`; per the spec, an
indeterminate quotient is reported as not-a-number rather than raising, so
a vanishing denominator yields `PyFloat.nan` and division is attempted
only on a nonzero denominator (`Except.error` models a raised Python
exception, which this function never produces). -/
def kuderRichardsonSim {α : Type} [DecidableEq α] (A B : List α) :
    Except String PyFloat :=
  let a : ℤ := bothCard A B
  let b : ℤ := onlyACard A B
  let c : ℤ := onlyBCard A B
  let d : ℤ := 0
  let num := 4 * (a * d - b * c)
  let den := (a + b) * (c + d) + (a + c) * (b + d) + 2 * (a * d - b * c)
  if den = 0 then Except.ok PyFloat.nan
  else Except.ok (PyFloat.val ((num : ℚ) / (den : ℚ)))

/-- `LegaliPyTokenizer` instance state: the onset list (initially `['']`,
replaced by training). -/
structure LegaliPyTokenizer : Type where
  onsets : List (List Char)
deriving DecidableEq

namespace LegaliPyTokenizer

/-- `LegaliPyTokenizer.__init__` (`_legalipy.py` lines 66-74): if the
SyllabiPy package is unavailable (modelled by the flag `available`, which
stands for the module-level import having succeeded), raise a `TypeError`;
otherwise construct the instance with onset list `['']`. -/
def init (available : Bool) : Except String LegaliPyTokenizer :=
  if !available then
    Except.error "LegaliPy tokenizer requires installation of SyllabiPy package."
  else Except.ok ⟨[[]]⟩

/-- Does the onset `o` occur at the start of the string `s`? -/
def onsetAtStart : List Char → List Char → Bool
  | [], _ => true
  | _ :: _, [] => false
  | o :: os, c :: cs => o == c && onsetAtStart os cs

/-- The longest onset from the list that matches at the start of `s`
(empty result when none of positive length matches). -/
def bestOnset (onsets : List (List Char)) (s : List Char) : List Char :=
  onsets.foldl
    (fun best o => if onsetAtStart o s && best.length < o.length then o else best)
    []

/-- Modelled from the spec: the external SyllabiPy `LegaliPy` function
called by `LegaliPyTokenizer.tokenize` is not part of the excerpt; per the
spec, it greedily matches, at each position, the longest onset from the
trained list, falling back to a single-character token when no onset (of
positive length) matches.  Fuelled to keep the recursion structural. -/
def syllabifyF (onsets : List (List Char)) : Nat → List Char → List (List Char)
  | _, [] => []
  | 0, _ :: _ => []
  | fuel + 1, c :: cs =>
    match bestOnset onsets (c :: cs) with
    | [] => [c] :: syllabifyF onsets fuel cs
    | o :: os =>
      (o :: os) :: syllabifyF onsets fuel ((c :: cs).drop (o :: os).length)

/-- `LegaliPyTokenizer.tokenize` (`_legalipy.py` lines 99-118): the ordered
list is the result of the external `LegaliPy` call on the string and the
stored onset list; the body performs no configuration check. -/
def tokenize (t : LegaliPyTokenizer) (s : List Char) : List (List Char) :=
  syllabifyF t.onsets s.length s

/-- `LegaliPyTokenizer.tokenize` with the external `LegaliPy` function kept
abstract (`f`), returned through the exception monad to record that the
body can raise no configuration error. -/
def tokenizeExt (t : LegaliPyTokenizer)
    (f : List Char → List (List Char) → List (List Char)) (s : List Char) :
    Except String (List (List Char)) :=
  Except.ok (f s t.onsets)

/-- The leading non-vowel cluster of a word, used as its onset
candidate. -/
def wordOnset (w : List Char) : List Char :=
  w.takeWhile (fun c => !isVowel c)

/-- Modelled from the spec: the external SyllabiPy `getOnsets` used by
`train_onsets` is not part of the excerpt; per the spec, it derives the
onsets whose frequency of use across the corpus exceeds the threshold.  An
empty corpus has no words, hence yields no onsets. -/
def getOnsets (text : List Char) (threshold : ℚ) : List (List Char) :=
  let ws := splitWords text
  let cands := (ws.map wordOnset).dedup
  cands.filter (fun o => threshold * ws.length < ((ws.map wordOnset).count o : ℚ))

/-- `LegaliPyTokenizer.train_onsets` (`_legalipy.py` lines 76-97) with
`append=False`: the onset list is replaced by the freshly derived one. -/
def train_onsets (_t : LegaliPyTokenizer) (text : List Char) (threshold : ℚ) :
    LegaliPyTokenizer :=
  ⟨getOnsets text threshold⟩

end LegaliPyTokenizer

namespace Count

/-- The loop of `Count.fingerprint` (`_count.py` lines 96-101): for each
most-common letter while bits remain, shift the fingerprint left two bits
and add the letter's occurrence count masked to two bits (`& 3`); on
leaving the loop, shift by the remaining bit budget when it is nonzero. -/
def fpLoop (word : List Char) : List Char → Nat → Nat → Nat
  | [], nb, fp => if nb ≠ 0 then fp <<< nb else fp
  | l :: ls, nb, fp =>
    if nb ≠ 0 then fpLoop word ls (nb - 2) ((fp <<< 2) + word.count l % 4)
    else fp

/-- `Count.fingerprint` (`_count.py` lines 88-106): odd bit budgets are
first rounded up to even, then the loop above runs over the configured
most-common letters. -/
def fingerprint (n_bits : Nat) (most_common word : List Char) : Nat :=
  let nb := if n_bits % 2 = 1 then n_bits + 1 else n_bits
  fpLoop word most_common nb 0

/-- The fingerprint value as the claim describes it: the first
`n_bits / 2` most-common letters contribute their occurrence counts modulo
4 as consecutive 2-bit fields, most significant first, and when the
most-common list is shorter the remaining low-order bits are zero. -/
def claimValue (n_bits : Nat) (most_common word : List Char) : Nat :=
  ((most_common.take (n_bits / 2)).foldl
      (fun acc l => acc * 4 + word.count l % 4) 0) *
    2 ^ (n_bits - 2 * min (n_bits / 2) most_common.length)

end Count

/-! ### Helper lemmas -/

theorem splitWords_single (w : List Char) (hne : w ≠ [])
    (hw : ∀ c ∈ w, c.isWhitespace = false) : splitWords w = [w] := by
  cases w with
  | nil => exact absurd rfl hne
  | cons c rest =>
    have hc : c.isWhitespace = false := hw c (List.mem_cons_self c rest)
    have htw : rest.takeWhile (fun d => !d.isWhitespace) = rest :=
      List.takeWhile_eq_self_iff.mpr fun d hd => by
        simp [hw d (List.mem_cons_of_mem c hd)]
    have hdw : rest.dropWhile (fun d => !d.isWhitespace) = [] :=
      List.dropWhile_eq_nil_iff.mpr fun d hd => by
        simp [hw d (List.mem_cons_of_mem c hd)]
    simp only [splitWords, List.length_cons, splitWordsF, hc, Bool.false_eq_true,
      if_false, htw, hdw]

theorem alphabetFS_comm {α : Type} [DecidableEq α] (A B : List α) :
    alphabetFS A B = alphabetFS B A := by
  simp [alphabetFS, List.toFinset_append, Finset.union_comm]

theorem alphabetFS_self {α : Type} [DecidableEq α] (A : List α) :
    alphabetFS A A = A.toFinset := by
  simp [alphabetFS, List.toFinset_append]

theorem onlyACard_self {α : Type} [DecidableEq α] (A : List α) :
    onlyACard A A = 0 := by
  rw [onlyACard, Finset.card_eq_zero, Finset.filter_eq_empty_iff]
  rintro t _ ⟨h1, h2⟩
  omega

theorem onlyBCard_self {α : Type} [DecidableEq α] (A : List α) :
    onlyBCard A A = 0 := by
  rw [onlyBCard, Finset.card_eq_zero, Finset.filter_eq_empty_iff]
  rintro t _ ⟨h1, h2⟩
  omega

theorem bestOnset_of_all_nil (onsets : List (List Char))
    (h : ∀ o ∈ onsets, o = []) (s : List Char) :
    LegaliPyTokenizer.bestOnset onsets s = [] := by
  have key : ∀ (l : List (List Char)), (∀ o ∈ l, o = ([] : List Char)) →
      l.foldl (fun best o =>
        if LegaliPyTokenizer.onsetAtStart o s && best.length < o.length then o
        else best) [] = [] := by
    intro l
    induction l with
    | nil => intro _; rfl
    | cons o tl ih =>
      intro hall
      have ho : o = [] := hall o (List.mem_cons_self o tl)
      subst ho
      simp only [List.foldl_cons, ite_self]
      exact ih fun x hx => hall x (List.mem_cons_of_mem _ hx)
  exact key onsets h

theorem syllabifyF_degenerate (onsets : List (List Char))
    (h : ∀ o ∈ onsets, o = []) :
    ∀ (fuel : Nat) (s : List Char), s.length ≤ fuel →
      LegaliPyTokenizer.syllabifyF onsets fuel s = s.map (fun c => [c]) := by
  intro fuel
  induction fuel with
  | zero =>
    intro s hs
    cases s with
    | nil => rfl
    | cons c cs => simp at hs
  | succ n ih =>
    intro s hs
    cases s with
    | nil => rfl
    | cons c cs =>
      rw [LegaliPyTokenizer.syllabifyF, bestOnset_of_all_nil onsets h, List.map_cons]
      have : cs.length ≤ n := by simpa using hs
      rw [ih cs this]

theorem wordF_eq_amendedF :
    ∀ (fuel : Nat) (w : List Char),
      SAPSTokenizer.wordF fuel w = sapsAmendedRuleF fuel w := by
  intro fuel
  induction fuel with
  | zero => intro w; cases w <;> rfl
  | succ n ih =>
    intro w
    cases w with
    | nil => rfl
    | cons c rest =>
      simp only [SAPSTokenizer.wordF, sapsAmendedRuleF]
      generalize rest.takeWhile isVowel = v1
      generalize rest.dropWhile isVowel = r1
      cases r1 with
      | nil => cases hv : isVowel (v1.getLastD c) <;> simp [hv, ih]
      | cons d tl =>
        cases tl with
        | nil =>
          cases hv : isVowel (v1.getLastD c) <;> cases hd : isVowel d <;>
            simp [hv, hd, ih]
        | cons e tl2 =>
          cases hv : isVowel (v1.getLastD c) <;> cases hd : isVowel d <;>
            cases he : isVowel e <;> simp [hv, hd, he, ih]

theorem count_fpLoop_closed_form (word : List Char) :
    ∀ (ls : List Char) (k fp : Nat),
      Count.fpLoop word ls (2 * k) fp =
        ((ls.take k).foldl (fun acc l => acc * 4 + word.count l % 4) fp) *
          2 ^ (2 * k - 2 * min k ls.length) := by
  intro ls
  induction ls with
  | nil =>
    intro k fp
    cases k with
    | zero => simp [Count.fpLoop]
    | succ j =>
      simp [Count.fpLoop, Nat.shiftLeft_eq]
  | cons l tl ih =>
    intro k fp
    cases k with
    | zero => simp [Count.fpLoop]
    | succ j =>
      have hne : 2 * (j + 1) ≠ 0 := by omega
      have h2 : 2 * (j + 1) - 2 = 2 * j := by omega
      have hexp : 2 * (j + 1) - 2 * min (j + 1) (l :: tl).length =
          2 * j - 2 * min j tl.length := by
        have := Nat.min_le_left j tl.length
        simp only [List.length_cons, Nat.succ_min_succ]
        omega
      simp only [Count.fpLoop, if_pos hne, h2, ih j, List.take_succ_cons,
        List.foldl_cons, hexp, Nat.shiftLeft_eq]

theorem count_foldl_bound (word : List Char) :
    ∀ (ls : List Char) (acc : Nat),
      (ls.foldl (fun acc l => acc * 4 + word.count l % 4) acc) <
        (acc + 1) * 4 ^ ls.length := by
  intro ls
  induction ls with
  | nil => intro acc; simp
  | cons l tl ih =>
    intro acc
    have hc : word.count l % 4 < 4 := Nat.mod_lt _ (by omega)
    calc (tl.foldl (fun acc l => acc * 4 + word.count l % 4)
            (acc * 4 + word.count l % 4))
        < (acc * 4 + word.count l % 4 + 1) * 4 ^ tl.length := ih _
      _ ≤ ((acc + 1) * 4) * 4 ^ tl.length := by
          apply Nat.mul_le_mul_right
          omega
      _ = (acc + 1) * 4 ^ (tl.length + 1) := by ring
      _ = (acc + 1) * 4 ^ (l :: tl).length := by simp

/-! ### Claim theorems -/

/-- C3: self-comparison is always a perfect match: for a self-compared
token multiset the statistics table has `only_a = only_b = 0` and `both`
equal to the alphabet size; consequently `Lorentzian.dist_abs` of a string
with itself is 0 (every per-token count difference vanishes), and
`NCDzlib.dist` of a string with itself is 0 (identical inputs
short-circuit). -/
theorem self_comparison_perfect_match {α : Type} [DecidableEq α]
    (A : List α) (compress : List Char → Nat) (s : List Char) :
    onlyACard A A = 0 ∧ onlyBCard A A = 0 ∧
    bothCard A A = A.toFinset.card ∧
    lorentzianDistAbs A A = 0 ∧
    ncdZlibDist compress s s = 0 := by
  refine ⟨onlyACard_self A, onlyBCard_self A, ?_, ?_, ?_⟩
  · rw [bothCard, alphabetFS_self]
    congr 1
    apply Finset.filter_true_of_mem
    intro t ht
    have : 0 < A.count t := List.count_pos_iff.mpr (List.mem_toFinset.mp ht)
    exact ⟨this, this⟩
  · rw [lorentzianDistAbs]
    apply Finset.sum_eq_zero
    intro t _
    simp
  · simp [ncdZlibDist]

/-- C4: the numeric comparison outputs are symmetric under swapping the
two inputs: `both`, the `total` sum, the `min_count` sum (the crisp
intersection) and the `max_count` sum (the crisp union) are unchanged,
`only_a`/`only_b` swap accordingly, and `Lorentzian.dist_abs` and
`NCDzlib.dist` are symmetric. -/
theorem comparison_outputs_symmetric {α : Type} [DecidableEq α]
    (A B : List α) (compress : List Char → Nat) (s t : List Char) :
    bothCard A B = bothCard B A ∧
    totalSumStat A B = totalSumStat B A ∧
    minSumStat A B = minSumStat B A ∧
    maxSumStat A B = maxSumStat B A ∧
    onlyACard A B = onlyBCard B A ∧
    lorentzianDistAbs A B = lorentzianDistAbs B A ∧
    ncdZlibDist compress s t = ncdZlibDist compress t s := by
  refine ⟨?_, ?_, ?_, ?_, ?_, ?_, ?_⟩
  · rw [bothCard, bothCard, alphabetFS_comm]
    congr 1
    apply Finset.filter_congr
    intro x _
    exact and_comm
  · rw [totalSumStat, totalSumStat, alphabetFS_comm]
    exact Finset.sum_congr rfl fun x _ => Nat.add_comm _ _
  · rw [minSumStat, minSumStat, alphabetFS_comm]
    exact Finset.sum_congr rfl fun x _ => Nat.min_comm _ _
  · rw [maxSumStat, maxSumStat, alphabetFS_comm]
    exact Finset.sum_congr rfl fun x _ => Nat.max_comm _ _
  · rw [onlyACard, onlyBCard, alphabetFS_comm]
    congr 1
    apply Finset.filter_congr
    intro x _
    exact and_comm
  · rw [lorentzianDistAbs, lorentzianDistAbs, alphabetFS_comm]
    exact Finset.sum_congr rfl fun x _ => by rw [abs_sub_comm]
  · by_cases h : s = t
    · subst h; simp [ncdZlibDist]
    · rw [ncdZlibDist, ncdZlibDist, if_neg h, if_neg fun hh => h hh.symm]
      dsimp only
      rw [min_comm ((compress (s ++ t) : ℤ)) ((compress (t ++ s) : ℤ)),
        min_comm ((compress s : ℤ)) ((compress t : ℤ)),
        max_comm ((compress s : ℤ)) ((compress t : ℤ))]

/-- C5: on degenerate inputs where the Kuder-Richardson formula is an
indeterminate 0/0 — two empty inputs, or any input compared with itself —
the result is the not-a-number value and no exception is raised: the
numerator and the denominator both vanish, and the returned value is
`Except.ok PyFloat.nan`, never `Except.error`. -/
theorem kuder_richardson_degenerate_nan {α : Type} [DecidableEq α]
    (A : List α) :
    kuderRichardsonSim A A = Except.ok PyFloat.nan ∧
    kuderRichardsonSim ([] : List α) ([] : List α) = Except.ok PyFloat.nan := by
  have key : ∀ (X : List α), kuderRichardsonSim X X = Except.ok PyFloat.nan := by
    intro X
    rw [kuderRichardsonSim]
    rw [onlyACard_self X, onlyBCard_self X]
    norm_num
  exact ⟨key A, key []⟩

/-- C6: constructing a `LegaliPyTokenizer` when the SyllabiPy dependency
is unavailable raises an error at construction time; with the dependency
available construction succeeds, and the `tokenize` body of a constructed
instance never raises a configuration error (it is `Except.ok` for every
instance, every external syllabifier and every input). -/
theorem legalipy_fails_fast_at_construction :
    LegaliPyTokenizer.init false =
      Except.error
        "LegaliPy tokenizer requires installation of SyllabiPy package." ∧
    LegaliPyTokenizer.init true = Except.ok ⟨[[]]⟩ ∧
    ∀ (t : LegaliPyTokenizer)
      (f : List Char → List (List Char) → List (List Char)) (s : List Char),
      LegaliPyTokenizer.tokenizeExt t f s = Except.ok (f s t.onsets) := by
  exact ⟨rfl, rfl, fun _ _ _ => rfl⟩

/-- C7: a `LegaliPyTokenizer` that has never been trained (onset list
`['']`), or that has been trained on an empty corpus (empty onset list),
tokenizes any string without raising and returns single-character
tokens. -/
theorem legalipy_untrained_single_char_tokens (s : List Char) (threshold : ℚ) :
    LegaliPyTokenizer.tokenize ⟨[[]]⟩ s = s.map (fun c => [c]) ∧
    LegaliPyTokenizer.tokenize
      (LegaliPyTokenizer.train_onsets ⟨[[]]⟩ [] threshold) s =
        s.map (fun c => [c]) := by
  constructor
  · exact syllabifyF_degenerate [[]] (by simp) s.length s le_rfl
  · have honsets : LegaliPyTokenizer.getOnsets [] threshold = [] := rfl
    rw [LegaliPyTokenizer.train_onsets, honsets]
    exact syllabifyF_degenerate [] (by simp) s.length s le_rfl

/-- C8: tokenizing the empty string succeeds and yields an empty ordered
token sequence and an empty token-count mapping, for the SAPS tokenizer
and for every LegaliPy tokenizer instance. -/
theorem tokenize_empty_string_empty :
    SAPSTokenizer.tokenize [] = [] ∧
    (∀ t : LegaliPyTokenizer, t.tokenize [] = []) ∧
    (∀ tok : List Char, tokenCounter ([] : List (List Char)) tok = 0) := by
  exact ⟨rfl, fun _ => rfl, fun _ => rfl⟩

/-- C9: the binarizing "set" scaling function, which maps every positive
count to 1 and leaves zero counts at 0, is idempotent on every token-count
mapping. -/
theorem set_scale_idempotent {α : Type} (c : α → Nat) :
    setScale (setScale c) = setScale c := by
  funext t
  simp only [setScale]
  by_cases h : 0 < c t
  · simp [h]
  · simp [h]

/-- C1 counterexample: on the whitespace-free word "bc" the tokenizer
yields the syllables "b", "c", while the claim's rule (absorb one trailing
consonant whenever it is followed by end-of-word or another consonant,
with no condition on the syllable ending in a vowel) yields the single
syllable "bc"; so `SAPSTokenizer.tokenize` does not split by the claim's
rule. -/
theorem saps_claim_rule_counterexample :
    (['b', 'c'] : List Char).all (fun c => !c.isWhitespace) = true ∧
    SAPSTokenizer.tokenize ['b', 'c'] = [['b'], ['c']] ∧
    sapsClaimRule ['b', 'c'] = [['b', 'c']] ∧
    SAPSTokenizer.tokenize ['b', 'c'] ≠ sapsClaimRule ['b', 'c'] := by
  decide

/-- C1 (amended): for every nonempty whitespace-free word,
`SAPSTokenizer.tokenize` splits it deterministically by the rule: a
syllable begins at the current character, absorbs any immediately
following vowels, then absorbs one trailing consonant when the syllable so
far ends in a vowel and that consonant is followed by either end-of-word
or another consonant; syllables appear left to right. -/
theorem saps_tokenize_amended_rule (w : List Char) (hne : w ≠ [])
    (hw : ∀ c ∈ w, c.isWhitespace = false) :
    SAPSTokenizer.tokenize w = sapsAmendedRule w := by
  rw [SAPSTokenizer.tokenize, splitWords_single w hne hw, List.foldl_cons,
    List.foldl_nil]
  rw [SAPSTokenizer.word, sapsAmendedRule]
  exact wordF_eq_amendedF w.length w

/-- Witness for the amended C1 theorem at the concrete word "entreat". -/
theorem saps_tokenize_amended_rule_witness :
    (['e', 'n', 't', 'r', 'e', 'a', 't'] : List Char) ≠ [] ∧
    (∀ c ∈ (['e', 'n', 't', 'r', 'e', 'a', 't'] : List Char),
      c.isWhitespace = false) ∧
    SAPSTokenizer.tokenize ['e', 'n', 't', 'r', 'e', 'a', 't'] =
      sapsAmendedRule ['e', 'n', 't', 'r', 'e', 'a', 't'] :=
  ⟨by decide, by decide,
    saps_tokenize_amended_rule ['e', 'n', 't', 'r', 'e', 'a', 't']
      (by decide) (by decide)⟩

/-- C2: on an input that splits into more than one whitespace-separated
word, `SAPSTokenizer.tokenize` returns exactly the syllables of the last
word (the per-word loop re-initialises the ordered list), and the
token-count mapping likewise reflects only the last word. -/
theorem saps_multiword_last_word_only (s w : List Char)
    (ws : List (List Char)) (hsplit : splitWords s = ws ++ [w])
    (_hne : ws ≠ []) :
    SAPSTokenizer.tokenize s = SAPSTokenizer.word w ∧
    tokenCounter (SAPSTokenizer.tokenize s) =
      tokenCounter (SAPSTokenizer.word w) := by
  have h1 : SAPSTokenizer.tokenize s = SAPSTokenizer.word w := by
    rw [SAPSTokenizer.tokenize, hsplit, List.foldl_append, List.foldl_cons,
      List.foldl_nil]
  exact ⟨h1, by rw [h1]⟩

/-- Witness for the C2 theorem at the concrete two-word input "ab cd". -/
theorem saps_multiword_last_word_only_witness :
    splitWords ['a', 'b', ' ', 'c', 'd'] = [['a', 'b']] ++ [['c', 'd']] ∧
    ([['a', 'b']] : List (List Char)) ≠ [] ∧
    SAPSTokenizer.tokenize ['a', 'b', ' ', 'c', 'd'] =
      SAPSTokenizer.word ['c', 'd'] :=
  ⟨by decide, by decide,
    (saps_multiword_last_word_only ['a', 'b', ' ', 'c', 'd'] ['c', 'd']
      [['a', 'b']] (by decide) (by decide)).1⟩

/-- C10: for every word and every even bit budget, `Count.fingerprint`
equals the claim's field description — each of the first `n_bits / 2`
most-common letters contributes its occurrence count modulo 4 as a 2-bit
field, most significant first, with remaining low-order bits zero when the
most-common list is shorter — and is a natural number strictly below
`2 ^ n_bits`. -/
theorem count_fingerprint_fields_and_bound (n : Nat) (mc word : List Char)
    (h : Even n) :
    Count.fingerprint n mc word = Count.claimValue n mc word ∧
    Count.fingerprint n mc word < 2 ^ n := by
  obtain ⟨k, hk⟩ := h
  have hn : n = 2 * k := by omega
  subst hn
  have hfp : Count.fingerprint (2 * k) mc word =
      ((mc.take k).foldl (fun acc l => acc * 4 + word.count l % 4) 0) *
        2 ^ (2 * k - 2 * min k mc.length) := by
    rw [Count.fingerprint]
    simp only [Nat.mul_mod_right]
    norm_num
    exact count_fpLoop_closed_form word mc k 0
  have hdiv : 2 * k / 2 = k := by omega
  constructor
  · rw [hfp, Count.claimValue, hdiv]
  · rw [hfp]
    have hlen : (mc.take k).length = min k mc.length := List.length_take _ _
    have hF : (mc.take k).foldl (fun acc l => acc * 4 + word.count l % 4) 0 <
        2 ^ (2 * min k mc.length) := by
      have hb := count_foldl_bound word (mc.take k) 0
      rw [hlen] at hb
      calc (mc.take k).foldl (fun acc l => acc * 4 + word.count l % 4) 0
          < (0 + 1) * 4 ^ min k mc.length := hb
        _ = 2 ^ (2 * min k mc.length) := by
            rw [Nat.one_mul, show (4 : ℕ) = 2 ^ 2 from rfl, ← pow_mul]
    have hm : min k mc.length ≤ k := Nat.min_le_left _ _
    calc ((mc.take k).foldl (fun acc l => acc * 4 + word.count l % 4) 0) *
          2 ^ (2 * k - 2 * min k mc.length)
        < 2 ^ (2 * min k mc.length) * 2 ^ (2 * k - 2 * min k mc.length) := by
          exact Nat.mul_lt_mul_of_lt_of_le hF (le_refl _) (Nat.pos_pow_of_pos _ (by omega))
      _ = 2 ^ (2 * min k mc.length + (2 * k - 2 * min k mc.length)) :=
          (pow_add 2 _ _).symm
      _ = 2 ^ (2 * k) := by congr 1; omega

/-- Witness for the C10 theorem at the concrete even bit budget 4, letters
['e','t'] and word "tee". -/
theorem count_fingerprint_fields_and_bound_witness :
    Even 4 ∧
    (Count.fingerprint 4 ['e', 't'] ['t', 'e', 'e'] =
        Count.claimValue 4 ['e', 't'] ['t', 'e', 'e'] ∧
      Count.fingerprint 4 ['e', 't'] ['t', 'e', 'e'] < 2 ^ 4) :=
  ⟨⟨2, by decide⟩,
    count_fingerprint_fields_and_bound 4 ['e', 't'] ['t', 'e', 'e'] ⟨2, by decide⟩⟩

end Abydos
